import Mathlib

/-!
Shallow embedding of the vending-machine controller
(src/src/vendingMachine.ts and src/src/coin.ts) in Lean 4.

Modelling conventions:
* Monetary values and prices are natural numbers (integer minor units).
* Coin weights are natural numbers (the source stores grams to three
  decimals and only ever compares weights for exact equality, so any
  type with decidable equality is faithful; think of the number as
  thousandths of a gram).
* `CoinInventory` (the `coinInv` record of the source) is an association
  list from denomination value to a count.  Counts are integers so that
  statements about non-negativity are meaningful.  JavaScript object
  keys are unique; updates therefore touch the first (hence only)
  matching entry.
* `Inventory` is an association list from slot key to item.
* The display is modelled as a tagged enumeration: the display strings of the source
  are pairwise distinct, and the price string renders the price
  injectively, so the tagged form is a faithful image of the string.
  (The spec, section 3, explicitly allows this representation.)
-/

structure Coin where
  weight : Nat
  value : Nat
  deriving DecidableEq

structure InventoryItem where
  name : String
  price : Nat
  quantity : Int
  deriving DecidableEq

abbrev CoinInventory := List (Nat × Int)

abbrev Inventory := List (String × InventoryItem)

inductive Display where
  | insert
  | exact
  | soldOut
  | thank
  | price (itemPrice : Nat)
  deriving DecidableEq

structure VendingMachine where
  insertedCoins : List Coin
  coinInv : CoinInventory
  inventory : Inventory
  display : Display
  lastDispensedItem : Option InventoryItem
  validCoins : List Coin
  deriving DecidableEq

/-- Count of `coinInv[v]`: the first entry of the association list with
key `v` (keys are unique in the source record), or 0 when absent. -/
def lookupCount : CoinInventory → Nat → Int
  | [], _ => 0
  | (d, c) :: rest, v => if d = v then c else lookupCount rest v

/-- Whether the record has key `v`. -/
def hasKey : CoinInventory → Nat → Bool
  | [], _ => false
  | (d, _) :: rest, v => if d = v then true else hasKey rest v

/-- Add `k` to the count stored at key `v` (the source writes
`this.coinInv[v] += k` one step at a time; keys are unique, so updating
the first matching entry is the record update).  A missing key is left
untouched; in the source a missing key would produce NaN, but every
caller only ever touches keys of the record, which the theorems carry
as a hypothesis. -/
def bump (v : Nat) (k : Int) : CoinInventory → CoinInventory
  | [] => []
  | (d, c) :: rest => if d = v then (d, c + k) :: rest else (d, c) :: bump v k rest

/-- `insertedCoinsValue` getter (vendingMachine.ts lines 41-47): total
value of the held coins. -/
def coinListValue : List Coin → Nat
  | [] => 0
  | c :: cs => c.value + coinListValue cs

def insertedCoinsValue (s : VendingMachine) : Nat :=
  coinListValue s.insertedCoins

/-- `ableToMakeChange` getter (lines 60-67): every count in `coinInv`
is at least 5. -/
def ableToMakeChange (inv : CoinInventory) : Bool :=
  inv.all (fun p => decide (5 ≤ p.2))

/-- `checkForExactChangeMode` (lines 81-88). -/
def checkForExactChangeMode (inv : CoinInventory) : Display :=
  if ableToMakeChange inv then Display.insert else Display.exact

/-- One step of `createCoinInventoryRecord`: `coins[coin.value] = 0`.
If the key exists the stored count is already 0, so only a missing key
changes the record. -/
def insertKey (inv : CoinInventory) (v : Nat) : CoinInventory :=
  if hasKey inv v then inv else inv ++ [(v, 0)]

/-- `createCoinInventoryRecord` (lines 69-75): a record with one key
per accepted denomination, every count 0. -/
def createCoinInventoryRecord (validCoins : List Coin) : CoinInventory :=
  validCoins.foldl (fun inv c => insertKey inv c.value) []

/-- `formatPriceText` (lines 77-79): the source renders the string
PRICE with the value in major units to two decimals; the tagged variant
carries the price in minor units, an injective image of that string. -/
def formatPriceText (itemPrice : Nat) : Display :=
  Display.price itemPrice

/-- The constructor (lines 32-39).  The source assigns
`this.display = this.checkForExactChangeMode()` BEFORE `this.coinInv`
is assigned: the for-in loop of `ableToMakeChange` visits no keys of
the still-missing record, so the check runs on an empty record. -/
def construct (acceptedCoins : List Coin) (inventory : Inventory) : VendingMachine :=
  { display := checkForExactChangeMode []
    insertedCoins := []
    validCoins := acceptedCoins
    inventory := inventory
    coinInv := createCoinInventoryRecord acceptedCoins
    lastDispensedItem := none }

/-- Descending insertion of one key, used to model
`coins.sort((a, b) => b - a)` (line 121); the keys of a record are
pairwise distinct so any comparison sort yields this result. -/
def insertDesc (x : Nat) : List Nat → List Nat
  | [] => [x]
  | y :: ys => if y ≤ x then x :: y :: ys else y :: insertDesc x ys

def sortDesc (l : List Nat) : List Nat :=
  l.foldr insertDesc []

/-- The inner while loop of `calcChange` (lines 127-131) for one
denomination `d`: while `changeAmount >= d` and coins of `d` remain,
take one.  The fuel is the stock count, decremented once per
iteration; the result is the number taken and the remaining amount. -/
def greedyTake (d : Nat) : Int → Nat → Nat × Int
  | amt, 0 => (0, amt)
  | amt, fuel + 1 =>
    if (d : Int) ≤ amt then
      let r := greedyTake d (amt - (d : Int)) fuel
      (r.1 + 1, r.2)
    else
      (0, amt)

/-- The outer loop of `calcChange` (lines 121-132) over the sorted
denominations.  Returns the coins pushed onto `change`, the updated
record, and the final value of the local `changeAmount` (the residual
shortfall, 0 when change was made in full). -/
def calcChangeGo (valid : List Coin) : List Nat → CoinInventory → Int → List Coin × CoinInventory × Int
  | [], inv, amt => ([], inv, amt)
  | d :: rest, inv, amt =>
    match valid.find? (fun c => c.value == d) with
    | none => calcChangeGo valid rest inv amt
    | some cObj =>
      let t := greedyTake d amt (lookupCount inv d).toNat
      let r := calcChangeGo valid rest (bump d (-(t.1 : Int)) inv) t.2
      (List.replicate t.1 cObj ++ r.1, r.2)

/-- `calcChange` (lines 117-134): greedy largest-denomination-first
change making over the keys of `coinInv`, mutating the record. -/
def calcChange (s : VendingMachine) (amt : Int) : List Coin × VendingMachine :=
  let r := calcChangeGo s.validCoins (sortDesc (s.coinInv.map Prod.fst)) s.coinInv amt
  (r.1, { s with coinInv := r.2.1 })

/-- The residual shortfall the greedy algorithm would leave on this
state (the final value of the local `changeAmount`). -/
def changeResidual (s : VendingMachine) (amt : Int) : Int :=
  (calcChangeGo s.validCoins (sortDesc (s.coinInv.map Prod.fst)) s.coinInv amt).2.2

/-- `this.inventory[key]` lookup (line 100). -/
def lookupItem : Inventory → String → Option InventoryItem
  | [], _ => none
  | (k, it) :: rest, key => if k = key then some it else lookupItem rest key

def findItem (s : VendingMachine) (key : String) : Option InventoryItem :=
  lookupItem s.inventory key

/-- In-place update of the entry at `key` (keys of a record are
unique, so the first match is the entry). -/
def updateFirst (key : String) (f : InventoryItem → InventoryItem) : Inventory → Inventory
  | [] => []
  | (k, it) :: rest =>
    if k = key then (k, f it) :: rest else (k, it) :: updateFirst key f rest

/-- `dispenseItem` (lines 163-166).  The source stores a reference to
the shared item object in `lastDispensedItem` and then decrements its
quantity, so the stored item carries the decremented quantity. -/
def dispenseItem (s : VendingMachine) (key : String) (item : InventoryItem) : VendingMachine :=
  { s with
    lastDispensedItem := some { item with quantity := item.quantity - 1 }
    inventory := updateFirst key (fun it => { it with quantity := it.quantity - 1 }) s.inventory }

/-- `buyItem` (lines 90-95). -/
def buyItem (s : VendingMachine) (key : String) (item : InventoryItem) : List Coin × VendingMachine :=
  let s1 := { dispenseItem s key item with display := Display.thank }
  let amount := insertedCoinsValue s1
  calcChange s1 ((amount : Int) - (item.price : Int))

/-- `addCoinsToInv` (lines 156-161): fold every held coin into the
stock record, then clear the held coins. -/
def foldCoins (inv : CoinInventory) : List Coin → CoinInventory
  | [] => inv
  | c :: cs => foldCoins (bump c.value 1 inv) cs

def addCoinsToInv (s : VendingMachine) : VendingMachine :=
  { s with
    coinInv := foldCoins s.coinInv s.insertedCoins
    insertedCoins := [] }

/-- The branch of `selectItem` (lines 98-112), before the
unconditional `addCoinsToInv` call of line 113. -/
def selectItemBranch (s : VendingMachine) (key : String) : List Coin × VendingMachine :=
  match findItem s key with
  | none => ([], { s with display := Display.soldOut })
  | some item =>
    if item.quantity ≤ 0 then
      ([], { s with display := Display.soldOut })
    else if item.price > insertedCoinsValue s then
      ([], { s with display := formatPriceText item.price })
    else
      buyItem s key item

/-- `selectItem` (lines 97-115): the branch, then the unconditional
fold of the held coins into stock (line 113), then return the change. -/
def selectItem (s : VendingMachine) (key : String) : List Coin × VendingMachine :=
  let r := selectItemBranch s key
  (r.1, addCoinsToInv r.2)

/-- `insertCoin` (lines 141-150): every catalog coin whose weight
matches is pushed onto the held coins (the source pushes inside a
forEach over the whole catalog); the call is accepted when at least
one matched. -/
def insertCoin (s : VendingMachine) (weight : Nat) : VendingMachine × Bool :=
  let matched := s.validCoins.filter (fun c => c.weight == weight)
  ({ s with insertedCoins := s.insertedCoins ++ matched }, !matched.isEmpty)

/-- `resetMachine` (lines 168-171). -/
def resetMachine (s : VendingMachine) : VendingMachine :=
  { s with
    insertedCoins := []
    display := checkForExactChangeMode s.coinInv }

/-- `ejectCoins` (lines 176-178). -/
def ejectCoins (s : VendingMachine) : VendingMachine :=
  resetMachine s

/-- Total monetary value of the coin stock:
sum over denominations of count times value. -/
def coinStockValue : CoinInventory → Int
  | [] => 0
  | (d, c) :: rest => (d : Int) * c + coinStockValue rest

/-- Number of coins of denomination `v` in a coin list, as an integer. -/
def countVal (cs : List Coin) (v : Nat) : Int :=
  ((cs.filter (fun c => c.value == v)).length : Int)

/-- Operations of the controller, for reasoning about arbitrary
operation sequences. -/
inductive Op where
  | insert (weight : Nat)
  | select (key : String)
  | eject
  | reset
  deriving DecidableEq

def stepMachine (s : VendingMachine) : Op → VendingMachine
  | .insert w => (insertCoin s w).1
  | .select key => (selectItem s key).2
  | .eject => ejectCoins s
  | .reset => resetMachine s

/-- Value accepted by one operation: for `insertCoin` the value of the
coins appended to the held coins, otherwise 0. -/
def acceptedValue (s : VendingMachine) : Op → Nat
  | .insert w => coinListValue (s.validCoins.filter (fun c => c.weight == w))
  | _ => 0

/-- Value returned as change by one operation: for `selectItem` the
value of the returned coin sequence, otherwise 0. -/
def changeValue (s : VendingMachine) : Op → Nat
  | .select key => coinListValue (selectItem s key).1
  | _ => 0

/-- Value physically returned to the customer by an eject or reset:
the value of the held coins the operation clears. -/
def ejectedValue (s : VendingMachine) : Op → Nat
  | .eject => insertedCoinsValue s
  | .reset => insertedCoinsValue s
  | _ => 0

def runOps (s : VendingMachine) : List Op → VendingMachine
  | [] => s
  | op :: ops => runOps (stepMachine s op) ops

def totalAccepted (s : VendingMachine) : List Op → Nat
  | [] => 0
  | op :: ops => acceptedValue s op + totalAccepted (stepMachine s op) ops

def totalChange (s : VendingMachine) : List Op → Nat
  | [] => 0
  | op :: ops => changeValue s op + totalChange (stepMachine s op) ops

def totalEjected (s : VendingMachine) : List Op → Nat
  | [] => 0
  | op :: ops => ejectedValue s op + totalEjected (stepMachine s op) ops

/-- Well-formedness of a controller state: the catalog denominations
and the held-coin denominations all exist as keys of the stock record
(this is how the source keeps them: `createCoinInventoryRecord` keys
the record by the catalog values, and held coins come from the
catalog). -/
def WF (s : VendingMachine) : Prop :=
  (∀ c ∈ s.validCoins, hasKey s.coinInv c.value = true) ∧
  (∀ c ∈ s.insertedCoins, hasKey s.coinInv c.value = true)

/-! Concrete fixtures, mirroring the repository test harness
(tests/vendingMachine.test.ts): a nickel, dime and quarter catalog
(weights in thousandths of a gram) and a single product at slot A1. -/

def nickelC : Coin := { weight := 5000, value := 5 }

def dimeC : Coin := { weight := 2268, value := 10 }

def quarterC : Coin := { weight := 5670, value := 25 }

def testCoins : List Coin := [nickelC, dimeC, quarterC]

def chipsItem : InventoryItem := { name := "chips", price := 65, quantity := 3 }

def testInventory : Inventory := [("A1", chipsItem)]

def keyA1 : String := "A1"

def keyA2 : String := "A2"

def keyB2 : String := "B2"

/-- The state of the change-correctness scenario: stock 5->1, 10->2,
25->0, one chips item at 65, and 95 in held coins. -/
def s6 : VendingMachine :=
  { insertedCoins := [quarterC, quarterC, quarterC, dimeC, dimeC]
    coinInv := [(5, 1), (10, 2), (25, 0)]
    inventory := [("A1", { name := "chips", price := 65, quantity := 1 })]
    display := Display.insert
    lastDispensedItem := none
    validCoins := testCoins }

/-- A purchase-ready state: 75 held, ample stock, chips at 65. -/
def s4 : VendingMachine :=
  { insertedCoins := [quarterC, quarterC, quarterC]
    coinInv := [(5, 5), (10, 5), (25, 5)]
    inventory := [("A1", chipsItem)]
    display := Display.insert
    lastDispensedItem := none
    validCoins := testCoins }

/-- A small state with one held nickel. -/
def sW : VendingMachine :=
  { insertedCoins := [nickelC]
    coinInv := [(5, 2)]
    inventory := []
    display := Display.insert
    lastDispensedItem := none
    validCoins := [nickelC] }

def zeroItem : InventoryItem := { name := "empty", price := 50, quantity := 0 }

def priceyItem : InventoryItem := { name := "cola", price := 65, quantity := 3 }

/-- A state with no held coins, a sold-out slot A1 and an in-stock
slot A2. -/
def s8 : VendingMachine :=
  { insertedCoins := []
    coinInv := [(5, 0), (10, 0), (25, 0)]
    inventory := [("A1", zeroItem), ("A2", priceyItem)]
    display := Display.insert
    lastDispensedItem := none
    validCoins := testCoins }

/-- A catalog in which two different coins share one weight. -/
def dupCoins : List Coin := [{ weight := 10, value := 5 }, { weight := 10, value := 10 }]

def dupM : VendingMachine := construct dupCoins []

def oneCoinM : VendingMachine := construct [nickelC] []

def ops2 : List Op := [Op.insert 5000, Op.eject]

theorem coinListValue_append (l m : List Coin) :
    coinListValue (l ++ m) = coinListValue l + coinListValue m := by
  induction l with
  | nil => simp [coinListValue]
  | cons c cs ih => simp [coinListValue, ih]; ring

theorem coinListValue_replicate (n : Nat) (c : Coin) :
    coinListValue (List.replicate n c) = n * c.value := by
  induction n with
  | zero => simp [coinListValue]
  | succ k ih => simp [List.replicate, coinListValue, ih]; ring

theorem hasKey_bump (v : Nat) (k : Int) (inv : CoinInventory) (w : Nat) :
    hasKey (bump v k inv) w = hasKey inv w := by
  induction inv with
  | nil => rfl
  | cons p rest ih =>
    obtain ⟨d, c⟩ := p
    by_cases hd : d = v
    · simp [bump, hasKey, hd]
    · simp only [bump, if_neg hd]
      by_cases hw : d = w <;> simp [hasKey, hw, ih]

theorem lookupCount_bump_self (v : Nat) (k : Int) (inv : CoinInventory)
    (h : hasKey inv v = true) :
    lookupCount (bump v k inv) v = lookupCount inv v + k := by
  induction inv with
  | nil => simp [hasKey] at h
  | cons p rest ih =>
    obtain ⟨d, c⟩ := p
    by_cases hd : d = v
    · simp [bump, lookupCount, hd]
    · simp [hasKey, hd] at h
      simp [bump, lookupCount, hd, ih h]

theorem lookupCount_bump_other (v : Nat) (k : Int) (inv : CoinInventory) (w : Nat)
    (h : w ≠ v) :
    lookupCount (bump v k inv) w = lookupCount inv w := by
  induction inv with
  | nil => rfl
  | cons p rest ih =>
    obtain ⟨d, c⟩ := p
    by_cases hd : d = v
    · subst hd
      simp [bump, lookupCount, Ne.symm h]
    · simp only [bump, if_neg hd]
      by_cases hw : d = w <;> simp [lookupCount, hw, ih]

theorem bump_not_hasKey (v : Nat) (k : Int) (inv : CoinInventory)
    (h : hasKey inv v = false) : bump v k inv = inv := by
  induction inv with
  | nil => rfl
  | cons p rest ih =>
    obtain ⟨d, c⟩ := p
    by_cases hd : d = v
    · simp [hasKey, hd] at h
    · simp [hasKey, hd] at h
      simp [bump, hd, ih h]

theorem lookupCount_not_hasKey (v : Nat) (inv : CoinInventory)
    (h : hasKey inv v = false) : lookupCount inv v = 0 := by
  induction inv with
  | nil => rfl
  | cons p rest ih =>
    obtain ⟨d, c⟩ := p
    by_cases hd : d = v
    · simp [hasKey, hd] at h
    · simp [hasKey, hd] at h
      simp [lookupCount, hd, ih h]

theorem coinStockValue_bump (v : Nat) (k : Int) (inv : CoinInventory)
    (h : hasKey inv v = true) :
    coinStockValue (bump v k inv) = coinStockValue inv + (v : Int) * k := by
  induction inv with
  | nil => simp [hasKey] at h
  | cons p rest ih =>
    obtain ⟨d, c⟩ := p
    by_cases hd : d = v
    · subst hd
      simp [bump, coinStockValue]
      ring
    · simp [hasKey, hd] at h
      simp [bump, coinStockValue, hd, ih h]
      ring

theorem bump_nonneg (v : Nat) (k : Int) (inv : CoinInventory)
    (h : ∀ p ∈ inv, 0 ≤ p.2) (hk : 0 ≤ lookupCount inv v + k) :
    ∀ p ∈ bump v k inv, 0 ≤ p.2 := by
  induction inv with
  | nil => intro p hp; simp [bump] at hp
  | cons q rest ih =>
    obtain ⟨d, c⟩ := q
    intro p hp
    by_cases hd : d = v
    · simp [bump, hd] at hp
      rcases hp with hp | hp
      · subst hp
        simpa [lookupCount, hd] using hk
      · exact h p (by simp [hp])
    · simp [bump, hd] at hp
      rcases hp with hp | hp
      · subst hp
        exact h (d, c) (by simp)
      · refine ih (fun q hq => h q (by simp [hq])) ?_ p hp
        simpa [lookupCount, hd] using hk

theorem greedyTake_le_fuel (d : Nat) (amt : Int) (fuel : Nat) :
    (greedyTake d amt fuel).1 ≤ fuel := by
  induction fuel generalizing amt with
  | zero => simp [greedyTake]
  | succ k ih =>
    by_cases hle : (d : Int) ≤ amt
    · simp only [greedyTake, if_pos hle]
      exact Nat.succ_le_succ (ih (amt - (d : Int)))
    · simp [greedyTake, hle]

theorem greedyTake_amt (d : Nat) (amt : Int) (fuel : Nat) :
    (greedyTake d amt fuel).2 = amt - (d : Int) * ((greedyTake d amt fuel).1 : Int) := by
  induction fuel generalizing amt with
  | zero => simp [greedyTake]
  | succ k ih =>
    by_cases hle : (d : Int) ≤ amt
    · simp only [greedyTake, if_pos hle]
      rw [ih (amt - (d : Int))]
      push_cast
      ring
    · simp [greedyTake, hle]

theorem greedyTake_nonneg (d : Nat) (amt : Int) (fuel : Nat) (h : 0 ≤ amt) :
    0 ≤ (greedyTake d amt fuel).2 := by
  induction fuel generalizing amt with
  | zero => simpa [greedyTake] using h
  | succ k ih =>
    by_cases hle : (d : Int) ≤ amt
    · simp only [greedyTake, if_pos hle]
      exact ih (amt - (d : Int)) (by omega)
    · simpa [greedyTake, hle] using h

theorem hasKey_calcChangeGo (valid : List Coin) (ds : List Nat) (inv : CoinInventory)
    (amt : Int) (v : Nat) :
    hasKey (calcChangeGo valid ds inv amt).2.1 v = hasKey inv v := by
  induction ds generalizing inv amt with
  | nil => rfl
  | cons d rest ih =>
    simp only [calcChangeGo]
    cases valid.find? (fun c => c.value == d) with
    | none => exact ih inv amt
    | some cObj =>
      simp only []
      rw [ih, hasKey_bump]

theorem find?_value_eq (valid : List Coin) (d : Nat) (cObj : Coin)
    (h : valid.find? (fun c => c.value == d) = some cObj) : cObj.value = d := by
  have := List.find?_some h
  simpa using this

theorem countVal_append (l m : List Coin) (v : Nat) :
    countVal (l ++ m) v = countVal l v + countVal m v := by
  unfold countVal
  rw [List.filter_append, List.length_append]
  push_cast
  ring

theorem lookupCount_nonneg (inv : CoinInventory) (v : Nat)
    (h : ∀ p ∈ inv, 0 ≤ p.2) : 0 ≤ lookupCount inv v := by
  induction inv with
  | nil => simp [lookupCount]
  | cons p rest ih =>
    obtain ⟨d, c⟩ := p
    by_cases hd : d = v
    · simpa [lookupCount, hd] using h (d, c) (by simp)
    · simp only [lookupCount, if_neg hd]
      exact ih (fun q hq => h q (by simp [hq]))

theorem countVal_replicate_self (n : Nat) (c : Coin) :
    countVal (List.replicate n c) c.value = (n : Int) := by
  simp [countVal, List.filter_replicate]

theorem countVal_replicate_other (n : Nat) (c : Coin) (v : Nat) (h : c.value ≠ v) :
    countVal (List.replicate n c) v = 0 := by
  simp [countVal, List.filter_replicate, h]

theorem calcChangeGo_sum (valid : List Coin) (ds : List Nat) (inv : CoinInventory)
    (amt : Int) :
    (coinListValue (calcChangeGo valid ds inv amt).1 : Int)
      = amt - (calcChangeGo valid ds inv amt).2.2 := by
  induction ds generalizing inv amt with
  | nil => simp [calcChangeGo, coinListValue]
  | cons d rest ih =>
    simp only [calcChangeGo]
    cases hfind : valid.find? (fun c => c.value == d) with
    | none => exact ih inv amt
    | some cObj =>
      simp only []
      have hv : cObj.value = d := find?_value_eq valid d cObj hfind
      rw [coinListValue_append, coinListValue_replicate, hv]
      push_cast
      rw [ih]
      linarith [greedyTake_amt d amt (lookupCount inv d).toNat]

theorem calcChangeGo_residual_nonneg (valid : List Coin) (ds : List Nat)
    (inv : CoinInventory) (amt : Int) (h : 0 ≤ amt) :
    0 ≤ (calcChangeGo valid ds inv amt).2.2 := by
  induction ds generalizing inv amt with
  | nil => simpa [calcChangeGo] using h
  | cons d rest ih =>
    simp only [calcChangeGo]
    cases valid.find? (fun c => c.value == d) with
    | none => exact ih inv amt h
    | some cObj =>
      simp only []
      exact ih _ _ (greedyTake_nonneg d amt _ h)

theorem calcChangeGo_count (valid : List Coin) (ds : List Nat) (inv : CoinInventory)
    (amt : Int) (v : Nat) :
    lookupCount (calcChangeGo valid ds inv amt).2.1 v
      = lookupCount inv v - countVal (calcChangeGo valid ds inv amt).1 v := by
  induction ds generalizing inv amt with
  | nil => simp [calcChangeGo, countVal]
  | cons d rest ih =>
    simp only [calcChangeGo]
    cases hfind : valid.find? (fun c => c.value == d) with
    | none => exact ih inv amt
    | some cObj =>
      simp only []
      have hv : cObj.value = d := find?_value_eq valid d cObj hfind
      rw [countVal_append, ih]
      by_cases hvd : v = d
      · subst hvd
        rw [← hv, countVal_replicate_self, hv]
        by_cases hk : hasKey inv v = true
        · rw [lookupCount_bump_self v _ inv hk]
          ring
        · have hk0 : hasKey inv v = false := by
            cases hkk : hasKey inv v
            · rfl
            · exact absurd hkk hk
          have hl0 : lookupCount inv v = 0 := lookupCount_not_hasKey v inv hk0
          have hfuel : (lookupCount inv v).toNat = 0 := by rw [hl0]; rfl
          rw [hfuel]
          have ht : greedyTake v amt 0 = (0, amt) := rfl
          rw [ht, bump_not_hasKey v _ inv hk0]
          simp
      · rw [lookupCount_bump_other d _ inv v hvd,
            countVal_replicate_other _ cObj v (by rw [hv]; exact fun hh => hvd hh.symm)]
        ring

theorem calcChangeGo_nonneg (valid : List Coin) (ds : List Nat) (inv : CoinInventory)
    (amt : Int) (h : ∀ p ∈ inv, 0 ≤ p.2) :
    ∀ p ∈ (calcChangeGo valid ds inv amt).2.1, 0 ≤ p.2 := by
  induction ds generalizing inv amt with
  | nil => simpa [calcChangeGo] using h
  | cons d rest ih =>
    simp only [calcChangeGo]
    cases valid.find? (fun c => c.value == d) with
    | none => exact ih inv amt h
    | some cObj =>
      simp only []
      refine ih _ _ (bump_nonneg d _ inv h ?_)
      have h0 : 0 ≤ lookupCount inv d := lookupCount_nonneg inv d h
      have h1 : (greedyTake d amt (lookupCount inv d).toNat).1
          ≤ (lookupCount inv d).toNat :=
        greedyTake_le_fuel d amt (lookupCount inv d).toNat
      omega

theorem calcChangeGo_stockValue (valid : List Coin) (ds : List Nat) (inv : CoinInventory)
    (amt : Int) :
    coinStockValue (calcChangeGo valid ds inv amt).2.1
      = coinStockValue inv - (coinListValue (calcChangeGo valid ds inv amt).1 : Int) := by
  induction ds generalizing inv amt with
  | nil => simp [calcChangeGo, coinListValue]
  | cons d rest ih =>
    simp only [calcChangeGo]
    cases hfind : valid.find? (fun c => c.value == d) with
    | none => exact ih inv amt
    | some cObj =>
      simp only []
      have hv : cObj.value = d := find?_value_eq valid d cObj hfind
      rw [coinListValue_append, coinListValue_replicate, hv, ih]
      push_cast
      by_cases hk : hasKey inv d = true
      · rw [coinStockValue_bump d _ inv hk]
        ring
      · have hk0 : hasKey inv d = false := by
          cases hkk : hasKey inv d
          · rfl
          · exact absurd hkk hk
        have hl0 : lookupCount inv d = 0 := lookupCount_not_hasKey d inv hk0
        have hfuel : (lookupCount inv d).toNat = 0 := by rw [hl0]; rfl
        rw [hfuel]
        have ht : greedyTake d amt 0 = (0, amt) := rfl
        rw [ht, bump_not_hasKey d _ inv hk0]
        simp

theorem hasKey_foldCoins (inv : CoinInventory) (cs : List Coin) (v : Nat) :
    hasKey (foldCoins inv cs) v = hasKey inv v := by
  induction cs generalizing inv with
  | nil => rfl
  | cons c rest ih =>
    simp only [foldCoins]
    rw [ih, hasKey_bump]

theorem foldCoins_stockValue (inv : CoinInventory) (cs : List Coin)
    (h : ∀ c ∈ cs, hasKey inv c.value = true) :
    coinStockValue (foldCoins inv cs) = coinStockValue inv + (coinListValue cs : Int) := by
  induction cs generalizing inv with
  | nil => simp [foldCoins, coinListValue]
  | cons c rest ih =>
    simp only [foldCoins]
    rw [ih]
    · rw [coinStockValue_bump c.value 1 inv (h c (by simp))]
      simp [coinListValue]
      ring
    · intro q hq
      rw [hasKey_bump]
      exact h q (by simp [hq])

theorem foldCoins_lookup (inv : CoinInventory) (cs : List Coin) (v : Nat)
    (h : ∀ c ∈ cs, hasKey inv c.value = true) :
    lookupCount (foldCoins inv cs) v = lookupCount inv v + countVal cs v := by
  induction cs generalizing inv with
  | nil => simp [foldCoins, countVal]
  | cons c rest ih =>
    simp only [foldCoins]
    rw [ih]
    · by_cases hv : c.value = v
      · subst hv
        rw [lookupCount_bump_self c.value 1 inv (h c (by simp))]
        have : countVal (c :: rest) c.value = countVal rest c.value + 1 := by
          simp [countVal]
        rw [this]
        ring
      · rw [lookupCount_bump_other c.value 1 inv v (fun hh => hv hh.symm)]
        have : countVal (c :: rest) v = countVal rest v := by
          simp [countVal, hv]
        rw [this]
    · intro q hq
      rw [hasKey_bump]
      exact h q (by simp [hq])

theorem lookupItem_updateFirst (invl : Inventory) (key : String)
    (f : InventoryItem → InventoryItem) (it : InventoryItem)
    (h : lookupItem invl key = some it) :
    lookupItem (updateFirst key f invl) key = some (f it) := by
  induction invl with
  | nil => simp [lookupItem] at h
  | cons p rest ih =>
    obtain ⟨k, q⟩ := p
    by_cases hk : k = key
    · simp [lookupItem, hk] at h
      subst h
      simp [updateFirst, lookupItem, hk]
    · simp only [lookupItem, if_neg hk] at h
      simp only [updateFirst, if_neg hk, lookupItem]
      exact ih h

theorem mem_updateFirst (invl : Inventory) (key : String)
    (f : InventoryItem → InventoryItem) (it : InventoryItem)
    (h : lookupItem invl key = some it) :
    ∀ p ∈ updateFirst key f invl, p ∈ invl ∨ p = (key, f it) := by
  induction invl with
  | nil => intro p hp; simp [updateFirst] at hp
  | cons q rest ih =>
    obtain ⟨k, w⟩ := q
    intro p hp
    by_cases hk : k = key
    · subst hk
      have hw : w = it := by simpa [lookupItem] using h
      subst hw
      have hu : updateFirst k f ((k, w) :: rest) = (k, f w) :: rest := by
        simp [updateFirst]
      rw [hu] at hp
      rcases List.mem_cons.mp hp with hp1 | hp1
      · right
        exact hp1
      · left
        exact List.mem_cons_of_mem _ hp1
    · simp only [lookupItem, if_neg hk] at h
      simp only [updateFirst, if_neg hk] at hp
      rcases List.mem_cons.mp hp with hp1 | hp1
      · left
        rw [hp1]
        exact List.mem_cons_self _ _
      · rcases ih h p hp1 with hh | hh
        · left
          exact List.mem_cons_of_mem _ hh
        · right
          exact hh

theorem insertKey_counts_zero (inv : CoinInventory) (v : Nat)
    (h : ∀ p ∈ inv, p.2 = 0) : ∀ p ∈ insertKey inv v, p.2 = 0 := by
  intro p hp
  unfold insertKey at hp
  by_cases hk : hasKey inv v = true
  · rw [if_pos hk] at hp
    exact h p hp
  · rw [if_neg hk] at hp
    simp at hp
    rcases hp with hp | hp
    · exact h p hp
    · rw [hp]

theorem insertKey_ne_nil (inv : CoinInventory) (v : Nat) : insertKey inv v ≠ [] := by
  unfold insertKey
  by_cases hk : hasKey inv v = true
  · rw [if_pos hk]
    cases inv with
    | nil => simp [hasKey] at hk
    | cons p rest => simp
  · rw [if_neg hk]
    simp

theorem hasKey_append_self (inv : CoinInventory) (v : Nat) :
    hasKey (inv ++ [(v, 0)]) v = true := by
  induction inv with
  | nil => simp [hasKey]
  | cons p rest ih =>
    obtain ⟨d, c⟩ := p
    by_cases hd : d = v
    · simp [hasKey, hd]
    · simp only [List.cons_append, hasKey, if_neg hd]
      exact ih

theorem hasKey_append_mono (inv : CoinInventory) (q : Nat × Int) (w : Nat)
    (h : hasKey inv w = true) : hasKey (inv ++ [q]) w = true := by
  induction inv with
  | nil => simp [hasKey] at h
  | cons p rest ih =>
    obtain ⟨d, c⟩ := p
    by_cases hd : d = w
    · simp [hasKey, hd]
    · simp only [hasKey, if_neg hd] at h
      simp only [List.cons_append, hasKey, if_neg hd]
      exact ih h

theorem hasKey_insertKey_self (inv : CoinInventory) (v : Nat) :
    hasKey (insertKey inv v) v = true := by
  unfold insertKey
  by_cases hk : hasKey inv v = true
  · rw [if_pos hk]
    exact hk
  · rw [if_neg hk]
    exact hasKey_append_self inv v

theorem hasKey_insertKey_mono (inv : CoinInventory) (v w : Nat)
    (h : hasKey inv w = true) : hasKey (insertKey inv v) w = true := by
  unfold insertKey
  by_cases hk : hasKey inv v = true
  · rw [if_pos hk]
    exact h
  · rw [if_neg hk]
    exact hasKey_append_mono inv (v, 0) w h

theorem foldl_insertKey_counts_zero (cs : List Coin) (inv : CoinInventory)
    (h : ∀ p ∈ inv, p.2 = 0) :
    ∀ p ∈ cs.foldl (fun i c => insertKey i c.value) inv, p.2 = 0 := by
  induction cs generalizing inv with
  | nil => simpa using h
  | cons c rest ih =>
    simp only [List.foldl_cons]
    exact ih _ (insertKey_counts_zero inv c.value h)

theorem foldl_insertKey_ne_nil (cs : List Coin) (inv : CoinInventory) (h : inv ≠ []) :
    cs.foldl (fun i c => insertKey i c.value) inv ≠ [] := by
  induction cs generalizing inv with
  | nil => simpa using h
  | cons c rest ih =>
    simp only [List.foldl_cons]
    exact ih _ (insertKey_ne_nil inv c.value)

theorem foldl_insertKey_hasKey (cs : List Coin) (inv : CoinInventory) (v : Nat)
    (h : hasKey inv v = true ∨ ∃ c ∈ cs, c.value = v) :
    hasKey (cs.foldl (fun i c => insertKey i c.value) inv) v = true := by
  induction cs generalizing inv with
  | nil =>
    rcases h with h | h
    · simpa using h
    · obtain ⟨c, hc, _⟩ := h
      simp at hc
  | cons c rest ih =>
    simp only [List.foldl_cons]
    rcases h with h | h
    · exact ih _ (Or.inl (hasKey_insertKey_mono inv c.value v h))
    · obtain ⟨c0, hc0, hv⟩ := h
      rcases List.mem_cons.mp hc0 with h1 | h1
      · subst h1
        subst hv
        exact ih _ (Or.inl (hasKey_insertKey_self inv c0.value))
      · exact ih _ (Or.inr ⟨c0, h1, hv⟩)

theorem createCoinInventoryRecord_counts_zero (cs : List Coin) :
    ∀ p ∈ createCoinInventoryRecord cs, p.2 = 0 :=
  foldl_insertKey_counts_zero cs [] (by simp)

theorem createCoinInventoryRecord_ne_nil (cs : List Coin) (h : cs ≠ []) :
    createCoinInventoryRecord cs ≠ [] := by
  cases cs with
  | nil => exact absurd rfl h
  | cons c rest =>
    unfold createCoinInventoryRecord
    simp only [List.foldl_cons]
    exact foldl_insertKey_ne_nil rest _ (insertKey_ne_nil [] c.value)

theorem createCoinInventoryRecord_hasKey (cs : List Coin) (v : Nat)
    (h : ∃ c ∈ cs, c.value = v) :
    hasKey (createCoinInventoryRecord cs) v = true :=
  foldl_insertKey_hasKey cs [] v (Or.inr h)

theorem coinStockValue_of_zero (inv : CoinInventory) (h : ∀ p ∈ inv, p.2 = 0) :
    coinStockValue inv = 0 := by
  induction inv with
  | nil => rfl
  | cons p rest ih =>
    obtain ⟨d, c⟩ := p
    have hc : c = 0 := h (d, c) (by simp)
    simp only [coinStockValue, hc]
    rw [ih (fun q hq => h q (by simp [hq]))]
    ring

theorem ableToMakeChange_of_zero (inv : CoinInventory) (hne : inv ≠ [])
    (h : ∀ p ∈ inv, p.2 = 0) : ableToMakeChange inv = false := by
  cases inv with
  | nil => exact absurd rfl hne
  | cons p rest =>
    have hp : p.2 = 0 := h p (by simp)
    simp [ableToMakeChange, hp]

theorem filter_weight_single (l : List Coin) (c : Coin) (hc : c ∈ l)
    (hw : l.Pairwise (fun a b => a.weight ≠ b.weight)) :
    l.filter (fun x => x.weight == c.weight) = [c] := by
  induction l with
  | nil => simp at hc
  | cons a rest ih =>
    rcases List.mem_cons.mp hc with h1 | h1
    · subst h1
      rw [List.filter_cons]
      have hnone : rest.filter (fun x => x.weight == c.weight) = [] := by
        rw [List.filter_eq_nil_iff]
        intro x hx
        have hx2 := (List.pairwise_cons.mp hw).1 x hx
        simp
        exact fun hh => hx2 hh.symm
      simp [hnone]
    · have hne : a.weight ≠ c.weight := (List.pairwise_cons.mp hw).1 c h1
      rw [List.filter_cons]
      have hfa : (a.weight == c.weight) = false := by simp [hne]
      simp only [hfa, Bool.false_eq_true, if_neg]
      exact ih h1 (List.pairwise_cons.mp hw).2

theorem selectItemBranch_spec (s : VendingMachine) (key : String) :
    (selectItemBranch s key).2.insertedCoins = s.insertedCoins
    ∧ (selectItemBranch s key).2.validCoins = s.validCoins
    ∧ (∀ v, hasKey (selectItemBranch s key).2.coinInv v = hasKey s.coinInv v)
    ∧ coinStockValue (selectItemBranch s key).2.coinInv
        = coinStockValue s.coinInv - (coinListValue (selectItemBranch s key).1 : Int) := by
  cases hfind : findItem s key with
  | none => simp [selectItemBranch, hfind, coinListValue]
  | some item =>
    by_cases hq : item.quantity ≤ 0
    · simp [selectItemBranch, hfind, hq, coinListValue]
    · by_cases hp : item.price > insertedCoinsValue s
      · simp [selectItemBranch, hfind, hq, hp, coinListValue]
      · simp only [selectItemBranch, hfind, if_neg hq, if_neg hp]
        unfold buyItem calcChange
        simp only []
        refine ⟨rfl, rfl, ?_, ?_⟩
        · intro v
          exact hasKey_calcChangeGo _ _ _ _ v
        · exact calcChangeGo_stockValue _ _ _ _

theorem addCoinsToInv_stockValue (s : VendingMachine)
    (h : ∀ c ∈ s.insertedCoins, hasKey s.coinInv c.value = true) :
    coinStockValue (addCoinsToInv s).coinInv
      = coinStockValue s.coinInv + (insertedCoinsValue s : Int) :=
  foldCoins_stockValue s.coinInv s.insertedCoins h

theorem step_conservation (s : VendingMachine) (op : Op) (hW : WF s) :
    WF (stepMachine s op)
    ∧ coinStockValue (stepMachine s op).coinInv
        + (insertedCoinsValue (stepMachine s op) : Int)
      = coinStockValue s.coinInv + (insertedCoinsValue s : Int)
        + (acceptedValue s op : Int) - (changeValue s op : Int)
        - (ejectedValue s op : Int) := by
  obtain ⟨hvalid, hheld⟩ := hW
  cases op with
  | insert w =>
    refine ⟨⟨?_, ?_⟩, ?_⟩
    · intro c hc
      exact hvalid c hc
    · intro c hc
      simp only [stepMachine, insertCoin] at hc
      rcases List.mem_append.mp hc with hc | hc
      · exact hheld c hc
      · exact hvalid c (List.mem_of_mem_filter hc)
    · simp only [stepMachine, insertCoin, acceptedValue, changeValue, ejectedValue,
        insertedCoinsValue]
      rw [coinListValue_append]
      push_cast
      ring
  | select key =>
    obtain ⟨hb1, hb2, hb3, hb4⟩ := selectItemBranch_spec s key
    have hkeys : ∀ c ∈ (selectItemBranch s key).2.insertedCoins,
        hasKey (selectItemBranch s key).2.coinInv c.value = true := by
      intro c hc
      rw [hb1] at hc
      rw [hb3]
      exact hheld c hc
    have hstep : stepMachine s (Op.select key) = addCoinsToInv (selectItemBranch s key).2 := rfl
    refine ⟨⟨?_, ?_⟩, ?_⟩
    · intro c hc
      rw [hstep] at hc ⊢
      have hv : (addCoinsToInv (selectItemBranch s key).2).validCoins
          = (selectItemBranch s key).2.validCoins := rfl
      rw [hv, hb2] at hc
      have h1 : hasKey (addCoinsToInv (selectItemBranch s key).2).coinInv c.value
          = hasKey (selectItemBranch s key).2.coinInv c.value := hasKey_foldCoins _ _ _
      rw [h1, hb3]
      exact hvalid c hc
    · intro c hc
      rw [hstep] at hc
      simp [addCoinsToInv] at hc
    · rw [hstep]
      have hstock := addCoinsToInv_stockValue (selectItemBranch s key).2 hkeys
      have hheld0 : insertedCoinsValue (addCoinsToInv (selectItemBranch s key).2) = 0 := rfl
      have hchange : changeValue s (Op.select key)
          = coinListValue (selectItemBranch s key).1 := rfl
      have hacc : acceptedValue s (Op.select key) = 0 := rfl
      have hej : ejectedValue s (Op.select key) = 0 := rfl
      rw [hstock, hheld0, hchange, hacc, hej, hb4]
      unfold insertedCoinsValue
      rw [hb1]
      push_cast
      ring
  | eject =>
    refine ⟨⟨?_, ?_⟩, ?_⟩
    · intro c hc
      exact hvalid c hc
    · intro c hc
      simp [stepMachine, ejectCoins, resetMachine] at hc
    · simp only [stepMachine, ejectCoins, resetMachine, acceptedValue, changeValue,
        ejectedValue, insertedCoinsValue, coinListValue]
      push_cast
      ring
  | reset =>
    refine ⟨⟨?_, ?_⟩, ?_⟩
    · intro c hc
      exact hvalid c hc
    · intro c hc
      simp [stepMachine, resetMachine] at hc
    · simp only [stepMachine, resetMachine, acceptedValue, changeValue,
        ejectedValue, insertedCoinsValue, coinListValue]
      push_cast
      ring

theorem run_conservation (s : VendingMachine) (ops : List Op) (hW : WF s) :
    WF (runOps s ops)
    ∧ coinStockValue (runOps s ops).coinInv + (insertedCoinsValue (runOps s ops) : Int)
      = coinStockValue s.coinInv + (insertedCoinsValue s : Int)
        + (totalAccepted s ops : Int) - (totalChange s ops : Int)
        - (totalEjected s ops : Int) := by
  induction ops generalizing s with
  | nil =>
    refine ⟨hW, ?_⟩
    simp [runOps, totalAccepted, totalChange, totalEjected]
  | cons op ops ih =>
    obtain ⟨hW2, heq⟩ := step_conservation s op hW
    obtain ⟨hW3, heq2⟩ := ih (stepMachine s op) hW2
    refine ⟨hW3, ?_⟩
    simp only [runOps, totalAccepted, totalChange, totalEjected] at heq2 ⊢
    push_cast at heq2 ⊢
    linarith [heq, heq2]

theorem construct_WF (cat : List Coin) (invl : Inventory) : WF (construct cat invl) := by
  constructor
  · intro c hc
    exact createCoinInventoryRecord_hasKey cat c.value ⟨c, hc, rfl⟩
  · intro c hc
    simp [construct] at hc

theorem construct_stockValue (cat : List Coin) (invl : Inventory) :
    coinStockValue (construct cat invl).coinInv = 0 :=
  coinStockValue_of_zero _ (createCoinInventoryRecord_counts_zero cat)

/-- Claim C1 counterexample: immediately after construction with the
non-empty test catalog, the display is INSERT COINS, not EXACT CHANGE
ONLY as the claim states — the constructor runs the exact-change check
before the coin stock exists. -/
theorem claim_C1_counterexample :
    testCoins ≠ []
    ∧ (construct testCoins testInventory).display = Display.insert
    ∧ (construct testCoins testInventory).display ≠ Display.exact := by
  refine ⟨by decide, rfl, by decide⟩

/-- Claim C1 (amended): the constructor computes the display before the
coin stock record is assigned, so the exact-change check sees no
denominations and vacuously passes: for every catalog the display
immediately after construction is INSERT COINS.  The claimed derivation
over the stock of all-zero counts takes effect on the first display
recomputation: for a non-empty catalog, resetMachine right after
construction yields EXACT CHANGE ONLY. -/
theorem claim_C1_amended (cat : List Coin) (invl : Inventory) (h : cat ≠ []) :
    (construct cat invl).display = Display.insert
    ∧ (resetMachine (construct cat invl)).display = Display.exact := by
  constructor
  · rfl
  · have hz := createCoinInventoryRecord_counts_zero cat
    have hne := createCoinInventoryRecord_ne_nil cat h
    have hfalse : ableToMakeChange (createCoinInventoryRecord cat) = false :=
      ableToMakeChange_of_zero _ hne hz
    have hc : (construct cat invl).coinInv = createCoinInventoryRecord cat := rfl
    simp [resetMachine, checkForExactChangeMode, hc, hfalse]

/-- Witness for the amended claim C1 at the test catalog. -/
theorem claim_C1_amended_witness :
    (construct testCoins testInventory).display = Display.insert
    ∧ (resetMachine (construct testCoins testInventory)).display = Display.exact :=
  claim_C1_amended testCoins testInventory (by decide)

/-- Claim C2 counterexample: the stated conservation law (stock plus
held equals inserted minus change) fails for the sequence insert then
eject, because ejected coins leave the machine without being counted
as change. -/
theorem claim_C2_counterexample :
    ¬ (coinStockValue (runOps oneCoinM ops2).coinInv
        + (insertedCoinsValue (runOps oneCoinM ops2) : Int)
      = (totalAccepted oneCoinM ops2 : Int) - (totalChange oneCoinM ops2 : Int)) := by
  decide

/-- Claim C2 (amended): for every sequence of operations from a fresh
controller, stock value plus held value equals the total value ever
accepted by insertCoin, minus the total value returned as change by
selectItem, minus the total value returned to the customer by
ejectCoins and resetMachine. -/
theorem claim_C2_amended (cat : List Coin) (invl : Inventory) (ops : List Op) :
    coinStockValue (runOps (construct cat invl) ops).coinInv
      + (insertedCoinsValue (runOps (construct cat invl) ops) : Int)
    = (totalAccepted (construct cat invl) ops : Int)
      - (totalChange (construct cat invl) ops : Int)
      - (totalEjected (construct cat invl) ops : Int) := by
  have h := (run_conservation (construct cat invl) ops (construct_WF cat invl)).2
  rw [construct_stockValue] at h
  have hh : insertedCoinsValue (construct cat invl) = 0 := rfl
  rw [hh] at h
  simpa using h

/-- Claim C6: in the exact-change scenario (stock 5->1, 10->2, 25->0,
price 65, held 95) the purchase returns change 10, 10, 5 summing to
25, skipping the empty quarter stock and consuming both dimes and the
nickel from the stock record. -/
theorem claim_C6 :
    (selectItem s6 keyA1).1 = [dimeC, dimeC, nickelC]
    ∧ coinListValue (selectItem s6 keyA1).1 = 25
    ∧ (selectItemBranch s6 keyA1).2.coinInv = [(5, 0), (10, 0), (25, 0)] := by
  decide

/-- Claim C9: ejectCoins empties the held coins, leaves every
coin-stock count untouched, and recomputes the display by the
exact-change check. -/
theorem claim_C9 (s : VendingMachine) :
    (ejectCoins s).insertedCoins = []
    ∧ (ejectCoins s).coinInv = s.coinInv
    ∧ (ejectCoins s).display = checkForExactChangeMode s.coinInv :=
  ⟨rfl, rfl, rfl⟩

/-- Claim C3: after selectItem returns — in every branch — each coin
that was held before the call has incremented the stock count at its
value by one (on top of whatever the branch itself did to the stock),
and the held-coins sequence is empty.  The hypothesis states the
well-formedness the source maintains: every held coin denomination is
a key of the stock record. -/
theorem claim_C3 (s : VendingMachine) (key : String)
    (h : ∀ c ∈ s.insertedCoins, hasKey s.coinInv c.value = true) :
    (selectItem s key).2.insertedCoins = []
    ∧ ∀ v, lookupCount (selectItem s key).2.coinInv v
        = lookupCount (selectItemBranch s key).2.coinInv v + countVal s.insertedCoins v := by
  obtain ⟨hb1, _, hb3, _⟩ := selectItemBranch_spec s key
  refine ⟨rfl, ?_⟩
  intro v
  have hkeys : ∀ c ∈ (selectItemBranch s key).2.insertedCoins,
      hasKey (selectItemBranch s key).2.coinInv c.value = true := by
    intro c hc
    rw [hb1] at hc
    rw [hb3]
    exact h c hc
  have he : (selectItem s key).2.coinInv
      = foldCoins (selectItemBranch s key).2.coinInv
          (selectItemBranch s key).2.insertedCoins := rfl
  rw [he, foldCoins_lookup _ _ v hkeys, hb1]

/-- Witness for claim C3: a concrete state with one held nickel,
checked at denomination 5. -/
theorem claim_C3_witness :
    (selectItem sW keyA1).2.insertedCoins = []
    ∧ lookupCount (selectItem sW keyA1).2.coinInv 5
        = lookupCount (selectItemBranch sW keyA1).2.coinInv 5 + countVal sW.insertedCoins 5 :=
  ⟨(claim_C3 sW keyA1 (by decide)).1, (claim_C3 sW keyA1 (by decide)).2 5⟩

/-- Claim C5: for a non-negative change amount over a stock with
non-negative counts, calcChange returns coins whose value sum never
exceeds the amount, decreases each count by exactly the number of
returned coins of that denomination, and leaves every count
non-negative; the function is total, so an insufficient stock still
returns normally with whatever change it could assemble, no error. -/
theorem claim_C5 (s : VendingMachine) (amt : Int) (h0 : 0 ≤ amt)
    (hnn : ∀ p ∈ s.coinInv, 0 ≤ p.2) :
    (coinListValue (calcChange s amt).1 : Int) ≤ amt
    ∧ (∀ v, lookupCount (calcChange s amt).2.coinInv v
        = lookupCount s.coinInv v - countVal (calcChange s amt).1 v)
    ∧ (∀ p ∈ (calcChange s amt).2.coinInv, 0 ≤ p.2) := by
  refine ⟨?_, ?_, ?_⟩
  · have h1 := calcChangeGo_sum s.validCoins (sortDesc (s.coinInv.map Prod.fst)) s.coinInv amt
    have h2 := calcChangeGo_residual_nonneg s.validCoins (sortDesc (s.coinInv.map Prod.fst))
      s.coinInv amt h0
    have he : (calcChange s amt).1
        = (calcChangeGo s.validCoins (sortDesc (s.coinInv.map Prod.fst)) s.coinInv amt).1 := rfl
    rw [he, h1]
    omega
  · intro v
    exact calcChangeGo_count s.validCoins (sortDesc (s.coinInv.map Prod.fst)) s.coinInv amt v
  · exact calcChangeGo_nonneg s.validCoins (sortDesc (s.coinInv.map Prod.fst)) s.coinInv amt hnn

/-- Witness for claim C5 in the short-stock scenario state: asking for
30 yields at most 30 (it yields 25), and the dime count drops by the
two dimes returned. -/
theorem claim_C5_witness :
    (coinListValue (calcChange s6 30).1 : Int) ≤ 30
    ∧ lookupCount (calcChange s6 30).2.coinInv 10
        = lookupCount s6.coinInv 10 - countVal (calcChange s6 30).1 10 :=
  ⟨(claim_C5 s6 30 (by decide) (by decide)).1,
   (claim_C5 s6 30 (by decide) (by decide)).2.1 10⟩

/-- Claim C7 counterexample: with a catalog holding two coins of the
same weight (values 5 and 10), inserting that weight appends BOTH
coins: the call returns true but the held value grows by 15, not by
the value 5 of the matched catalog coin, and two coins are appended. -/
theorem claim_C7_counterexample :
    (insertCoin dupM 10).2 = true
    ∧ insertedCoinsValue (insertCoin dupM 10).1 = 15
    ∧ (insertCoin dupM 10).1.insertedCoins.length = 2
    ∧ ¬ (insertedCoinsValue (insertCoin dupM 10).1
          = insertedCoinsValue dupM + 5) := by
  decide

/-- Claim C7 (amended): when the catalog weights are pairwise
distinct, inserting the weight of a catalog coin c is accepted,
appends exactly the one coin c, and grows the held value by exactly
the value of c. -/
theorem claim_C7_amended (s : VendingMachine) (c : Coin) (hc : c ∈ s.validCoins)
    (hw : s.validCoins.Pairwise (fun a b => a.weight ≠ b.weight)) :
    (insertCoin s c.weight).2 = true
    ∧ (insertCoin s c.weight).1.insertedCoins = s.insertedCoins ++ [c]
    ∧ insertedCoinsValue (insertCoin s c.weight).1 = insertedCoinsValue s + c.value := by
  have hf := filter_weight_single s.validCoins c hc hw
  unfold insertCoin
  simp only [hf]
  refine ⟨by simp, by simp, ?_⟩
  unfold insertedCoinsValue
  simp [coinListValue_append, coinListValue]

/-- Witness for the amended claim C7: inserting the dime weight in the
test catalog. -/
theorem claim_C7_amended_witness :
    (insertCoin s4 dimeC.weight).2 = true
    ∧ insertedCoinsValue (insertCoin s4 dimeC.weight).1
        = insertedCoinsValue s4 + dimeC.value :=
  ⟨(claim_C7_amended s4 dimeC (by decide) (by decide)).1,
   (claim_C7_amended s4 dimeC (by decide) (by decide)).2.2⟩

/-- Claim C4: a successful purchase (key present, positive quantity,
held value covering the price) decrements the quantity by exactly one,
sets the display to THANKS, leaves the held coins empty, and — when
the stock suffices to assemble the change in full (zero residual) —
returns change summing to held value minus price. -/
theorem claim_C4 (s : VendingMachine) (key : String) (item : InventoryItem)
    (hfind : findItem s key = some item)
    (hq : 0 < item.quantity)
    (hp : item.price ≤ insertedCoinsValue s) :
    findItem (selectItem s key).2 key = some { item with quantity := item.quantity - 1 }
    ∧ (selectItem s key).2.display = Display.thank
    ∧ (selectItem s key).2.insertedCoins = []
    ∧ (changeResidual s ((insertedCoinsValue s : Int) - (item.price : Int)) = 0 →
        (coinListValue (selectItem s key).1 : Int)
          = (insertedCoinsValue s : Int) - (item.price : Int)) := by
  have hq2 : ¬ item.quantity ≤ 0 := by omega
  have hp2 : ¬ item.price > insertedCoinsValue s := by omega
  have hbranch : selectItemBranch s key = buyItem s key item := by
    simp only [selectItemBranch, hfind, if_neg hq2, if_neg hp2]
  have hsel : selectItem s key
      = ((buyItem s key item).1, addCoinsToInv (buyItem s key item).2) := by
    unfold selectItem
    rw [hbranch]
  refine ⟨?_, ?_, ?_, ?_⟩
  · have hinv : (selectItem s key).2.inventory
        = updateFirst key (fun it => { it with quantity := it.quantity - 1 }) s.inventory := by
      rw [hsel]
      rfl
    unfold findItem
    rw [hinv]
    exact lookupItem_updateFirst s.inventory key _ item hfind
  · rw [hsel]
    rfl
  · rw [hsel]
    rfl
  · intro hres
    have hchange : (selectItem s key).1
        = (calcChangeGo s.validCoins (sortDesc (s.coinInv.map Prod.fst)) s.coinInv
            ((insertedCoinsValue s : Int) - (item.price : Int))).1 := by
      rw [hsel]
      rfl
    rw [hchange, calcChangeGo_sum]
    have hres2 : (calcChangeGo s.validCoins (sortDesc (s.coinInv.map Prod.fst)) s.coinInv
        ((insertedCoinsValue s : Int) - (item.price : Int))).2.2 = 0 := hres
    rw [hres2]
    ring

/-- Witness for claim C4: buying the chips with 75 held and a full
stock. -/
theorem claim_C4_witness :
    findItem (selectItem s4 keyA1).2 keyA1
        = some { chipsItem with quantity := chipsItem.quantity - 1 }
    ∧ (selectItem s4 keyA1).2.display = Display.thank
    ∧ (selectItem s4 keyA1).2.insertedCoins = []
    ∧ (coinListValue (selectItem s4 keyA1).1 : Int)
        = (insertedCoinsValue s4 : Int) - (chipsItem.price : Int) :=
  ⟨(claim_C4 s4 keyA1 chipsItem (by decide) (by decide) (by decide)).1,
   (claim_C4 s4 keyA1 chipsItem (by decide) (by decide) (by decide)).2.1,
   (claim_C4 s4 keyA1 chipsItem (by decide) (by decide) (by decide)).2.2.1,
   (claim_C4 s4 keyA1 chipsItem (by decide) (by decide) (by decide)).2.2.2 (by decide)⟩

/-- Claim C8: selectItem rejects in priority order — absent key gives
SOLD OUT regardless of funds, a present item with non-positive
quantity gives SOLD OUT, and a present in-stock item whose price
exceeds the held value gives the formatted price display — and each
rejection returns empty change and leaves the inventory unchanged. -/
theorem claim_C8 (s : VendingMachine) (key : String) :
    (findItem s key = none →
      (selectItem s key).1 = []
      ∧ (selectItem s key).2.display = Display.soldOut
      ∧ (selectItem s key).2.inventory = s.inventory)
    ∧ (∀ item, findItem s key = some item → item.quantity ≤ 0 →
      (selectItem s key).1 = []
      ∧ (selectItem s key).2.display = Display.soldOut
      ∧ (selectItem s key).2.inventory = s.inventory)
    ∧ (∀ item, findItem s key = some item → 0 < item.quantity →
        insertedCoinsValue s < item.price →
      (selectItem s key).1 = []
      ∧ (selectItem s key).2.display = formatPriceText item.price
      ∧ (selectItem s key).2.inventory = s.inventory) := by
  have h1 : (selectItem s key).1 = (selectItemBranch s key).1 := rfl
  have h2 : (selectItem s key).2.display = (selectItemBranch s key).2.display := rfl
  have h3 : (selectItem s key).2.inventory = (selectItemBranch s key).2.inventory := rfl
  refine ⟨?_, ?_, ?_⟩
  · intro hfind
    have hb : selectItemBranch s key = ([], { s with display := Display.soldOut }) := by
      simp only [selectItemBranch, hfind]
    rw [h1, h2, h3, hb]
    exact ⟨rfl, rfl, rfl⟩
  · intro item hfind hq
    have hb : selectItemBranch s key = ([], { s with display := Display.soldOut }) := by
      simp only [selectItemBranch, hfind, if_pos hq]
    rw [h1, h2, h3, hb]
    exact ⟨rfl, rfl, rfl⟩
  · intro item hfind hq hpr
    have hq2 : ¬ item.quantity ≤ 0 := by omega
    have hb : selectItemBranch s key
        = ([], { s with display := formatPriceText item.price }) := by
      simp only [selectItemBranch, hfind, if_neg hq2, if_pos hpr]
    rw [h1, h2, h3, hb]
    exact ⟨rfl, rfl, rfl⟩

/-- Witness for claim C8: the three rejection branches on concrete
states — an absent slot, a sold-out slot, and an unaffordable slot. -/
theorem claim_C8_witness :
    ((selectItem s8 keyB2).1 = []
      ∧ (selectItem s8 keyB2).2.display = Display.soldOut
      ∧ (selectItem s8 keyB2).2.inventory = s8.inventory)
    ∧ ((selectItem s8 keyA1).1 = []
      ∧ (selectItem s8 keyA1).2.display = Display.soldOut
      ∧ (selectItem s8 keyA1).2.inventory = s8.inventory)
    ∧ ((selectItem s8 keyA2).1 = []
      ∧ (selectItem s8 keyA2).2.display = formatPriceText priceyItem.price
      ∧ (selectItem s8 keyA2).2.inventory = s8.inventory) :=
  ⟨(claim_C8 s8 keyB2).1 (by decide),
   (claim_C8 s8 keyA1).2.1 zeroItem (by decide) (by decide),
   (claim_C8 s8 keyA2).2.2 priceyItem (by decide) (by decide) (by decide)⟩

/-- Claim C10 (implicit): every operation preserves non-negativity of
all inventory quantities; selectItem decrements only a strictly
positive quantity. -/
theorem claim_C10 (s : VendingMachine) (w : Nat) (key : String)
    (h : ∀ p ∈ s.inventory, 0 ≤ p.2.quantity) :
    (∀ p ∈ (insertCoin s w).1.inventory, 0 ≤ p.2.quantity)
    ∧ (∀ p ∈ (selectItem s key).2.inventory, 0 ≤ p.2.quantity)
    ∧ (∀ p ∈ (ejectCoins s).inventory, 0 ≤ p.2.quantity)
    ∧ (∀ p ∈ (resetMachine s).inventory, 0 ≤ p.2.quantity) := by
  refine ⟨?_, ?_, ?_, ?_⟩
  · intro p hp
    exact h p hp
  · intro p hp
    have he : (selectItem s key).2.inventory = (selectItemBranch s key).2.inventory := rfl
    rw [he] at hp
    cases hfind : findItem s key with
    | none =>
      have hb : (selectItemBranch s key).2.inventory = s.inventory := by
        simp only [selectItemBranch, hfind]
      rw [hb] at hp
      exact h p hp
    | some item =>
      by_cases hq : item.quantity ≤ 0
      · have hb : (selectItemBranch s key).2.inventory = s.inventory := by
          simp only [selectItemBranch, hfind, if_pos hq]
        rw [hb] at hp
        exact h p hp
      · by_cases hpr : item.price > insertedCoinsValue s
        · have hb : (selectItemBranch s key).2.inventory = s.inventory := by
            simp only [selectItemBranch, hfind, if_neg hq, if_pos hpr]
          rw [hb] at hp
          exact h p hp
        · have hb : (selectItemBranch s key).2.inventory
              = updateFirst key (fun it => { it with quantity := it.quantity - 1 })
                  s.inventory := by
            simp only [selectItemBranch, hfind, if_neg hq, if_neg hpr]
            rfl
          rw [hb] at hp
          have hflook : lookupItem s.inventory key = some item := hfind
          rcases mem_updateFirst s.inventory key _ item hflook p hp with hmem | heq
          · exact h p hmem
          · have hgoal : p.2.quantity = item.quantity - 1 := by rw [heq]
            rw [hgoal]
            omega
  · intro p hp
    exact h p hp
  · intro p hp
    exact h p hp

/-- Witness for claim C10: after a successful purchase from the
concrete state, the updated entry still has a non-negative quantity. -/
theorem claim_C10_witness :
    0 ≤ ((keyA1, { chipsItem with quantity := chipsItem.quantity - 1 })
          : String × InventoryItem).2.quantity :=
  (claim_C10 s4 5000 keyA1 (by decide)).2.1
    (keyA1, { chipsItem with quantity := chipsItem.quantity - 1 }) (by decide)
